import Mathlib

set_option maxHeartbeats 1000000

/- Verification of the charting kernel of the react-components-library
   repository: AreaChart.jsx, ChartUtils.jsx, RadialChart.jsx (PieChart) and
   the SparklineChart component. The JS code is shallowly embedded: machine
   numbers are exact rationals on the code paths that stay finite, and the
   JSVal type (finite rational, infinities, NaN) where IEEE special values
   matter. Path strings are modelled as lists of path commands. -/

namespace Charts

/-- DataPoint models one caller-supplied data record: an open mapping from
field name to a value. An absent key models a JS undefined field; an entry
whose value is none models an explicit null field. -/
abbrev DataPoint := List (String × Option ℚ)

/-- Field access as every chart site performs it, item[key] || 0: an
undefined or null field (and a stored 0, which the JS or-operator also
coerces to 0) reads as 0. -/
def getVal (item : DataPoint) (key : String) : ℚ :=
  match item.lookup key with
  | none => 0
  | some none => 0
  | some (some v) => v

/-- JSVal models a JS IEEE double on the code paths where special values
matter: a finite rational, one of the two infinities, or NaN. Negative zero
is not modelled; on every traced code path a zero denominator or zero factor
arises as the plain rational 0 (a positive zero in JS). -/
inductive JSVal where
  | num (q : ℚ)
  | pinf
  | ninf
  | nan
  deriving DecidableEq, Repr

namespace JSVal

/-- Negation of a JS number. -/
def neg : JSVal → JSVal
  | num q => num (-q)
  | pinf => ninf
  | ninf => pinf
  | nan => nan

/-- Addition of JS numbers: NaN propagates, opposite infinities give NaN. -/
def add : JSVal → JSVal → JSVal
  | nan, _ => nan
  | _, nan => nan
  | num a, num b => num (a + b)
  | num _, pinf => pinf
  | num _, ninf => ninf
  | pinf, num _ => pinf
  | ninf, num _ => ninf
  | pinf, pinf => pinf
  | ninf, ninf => ninf
  | pinf, ninf => nan
  | ninf, pinf => nan

/-- Subtraction of JS numbers. -/
def sub (a b : JSVal) : JSVal := add a (neg b)

/-- Multiplication of JS numbers: NaN propagates, infinity times zero is
NaN, otherwise infinities follow the sign rules. -/
def mul : JSVal → JSVal → JSVal
  | nan, _ => nan
  | _, nan => nan
  | num a, num b => num (a * b)
  | num a, pinf => if 0 < a then pinf else if a < 0 then ninf else nan
  | num a, ninf => if 0 < a then ninf else if a < 0 then pinf else nan
  | pinf, num b => if 0 < b then pinf else if b < 0 then ninf else nan
  | ninf, num b => if 0 < b then ninf else if b < 0 then pinf else nan
  | pinf, pinf => pinf
  | pinf, ninf => ninf
  | ninf, pinf => ninf
  | ninf, ninf => pinf

/-- Division of JS numbers: 0/0 and inf/inf are NaN, a nonzero finite
number divided by (positive) zero is a signed infinity, a finite number
divided by an infinity is zero. -/
def div : JSVal → JSVal → JSVal
  | nan, _ => nan
  | _, nan => nan
  | num a, num b =>
      if b = 0 then (if a = 0 then nan else if 0 < a then pinf else ninf)
      else num (a / b)
  | num _, pinf => num 0
  | num _, ninf => num 0
  | pinf, num b => if b < 0 then ninf else pinf
  | ninf, num b => if b < 0 then pinf else ninf
  | pinf, pinf => nan
  | pinf, ninf => nan
  | ninf, pinf => nan
  | ninf, ninf => nan

/-- Math.max of two JS numbers: NaN propagates. -/
def max2 : JSVal → JSVal → JSVal
  | nan, _ => nan
  | _, nan => nan
  | num a, num b => num (max a b)
  | num _, pinf => pinf
  | pinf, num _ => pinf
  | num a, ninf => num a
  | ninf, num b => num b
  | pinf, pinf => pinf
  | pinf, ninf => pinf
  | ninf, pinf => pinf
  | ninf, ninf => ninf

/-- Math.max over a spread argument list; with no arguments it is
negative infinity. -/
def maxList (l : List JSVal) : JSVal := l.foldr max2 ninf

end JSVal

namespace AreaChart

/-- visibleYKeys from AreaChart.jsx line 98:
yKeys.filter((_, i) => !hiddenSeries.has(i)). -/
def visibleYKeys (yKeys : List String) (hidden : List ℕ) : List String :=
  (yKeys.enum.filter (fun p => ! hidden.contains p.1)).map Prod.snd

/-- maxValue from AreaChart.jsx lines 100 to 106, over the JS number model:
when every series is hidden the computation falls back to all yKeys;
Math.max over an empty spread list is negative infinity; the result is
multiplied by the 1.1 headroom. -/
def maxValueJS (data : List DataPoint) (yKeys : List String) (hidden : List ℕ)
    (isStacked : Bool) : JSVal :=
  let keys := if 0 < (visibleYKeys yKeys hidden).length then visibleYKeys yKeys hidden else yKeys
  if isStacked then
    JSVal.mul (JSVal.maxList (data.map (fun d =>
      JSVal.num (keys.foldl (fun sum key => sum + getVal d key) 0)))) (JSVal.num (11/10))
  else
    JSVal.mul (JSVal.maxList ((data.map (fun d =>
      keys.map (fun key => JSVal.num (getVal d key)))).flatten)) (JSVal.num (11/10))

/-- valueRange from AreaChart.jsx lines 108 to 109: minValue is the constant
0 and valueRange = maxValue - minValue. -/
def valueRangeJS (data : List DataPoint) (yKeys : List String) (hidden : List ℕ)
    (isStacked : Bool) : JSVal :=
  JSVal.sub (maxValueJS data yKeys hidden isStacked) (JSVal.num 0)

/-- GeomPoint is the pixel-space projection of one data index computed by
getPoints. The source also stores the raw item (used only to render tooltip
text); it carries no numeric content and is omitted. -/
structure GeomPoint where
  x : ℚ
  y : ℚ
  value : ℚ
  stackedBase : ℚ
  deriving DecidableEq, Repr, Inhabited

/-- Frame bundles the plot-rectangle quantities that AreaChart computes
before any point mapping: chartX, chartY, chartWidth, chartHeight, the
constant minValue = 0 and the derived valueRange. -/
structure Frame where
  chartX : ℚ
  chartY : ℚ
  chartWidth : ℚ
  chartHeight : ℚ
  minValue : ℚ
  valueRange : ℚ
  deriving Repr

/-- getPoints from AreaChart.jsx lines 112 to 120:
x = chartX + (i / Math.max(data.length - 1, 1)) * chartWidth,
y = chartY + chartHeight - ((value + stackedBase - minValue) / valueRange) * chartHeight. -/
def getPoints (f : Frame) (data : List DataPoint) (key : String)
    (stackedValues : Option (List ℚ)) : List GeomPoint :=
  data.enum.map (fun p =>
    let i : ℕ := p.1
    let item : DataPoint := p.2
    let x := f.chartX + ((i : ℚ) / max ((data.length : ℚ) - 1) 1) * f.chartWidth
    let value := getVal item key
    let stackedBase := match stackedValues with
      | some sv => sv.getD i 0
      | none => 0
    let y := f.chartY + f.chartHeight -
      ((value + stackedBase - f.minValue) / f.valueRange) * f.chartHeight
    ⟨x, y, value, stackedBase⟩)

/-- y coordinate of getPoints over the JS number model, used to trace the
division by a zero valueRange (AreaChart.jsx line 117). -/
def pointYJS (chartY chartHeight minValue : ℚ) (valueRange : JSVal)
    (value stackedBase : ℚ) : JSVal :=
  JSVal.sub (JSVal.add (JSVal.num chartY) (JSVal.num chartHeight))
    (JSVal.mul (JSVal.div (JSVal.num (value + stackedBase - minValue)) valueRange)
      (JSVal.num chartHeight))

/-- Variant of the area chart (AreaChart.jsx line 26). -/
inductive Variant where
  | curved
  | straight
  | stacked
  | gradient
  | stepped
  deriving DecidableEq, Repr

/-- PathCmd models one command of an SVG path string: M, L, C, H or V with
exact rational arguments. An empty command list models the empty string. -/
inductive PathCmd where
  | moveTo (x y : ℚ)
  | lineTo (x y : ℚ)
  | curveTo (x1 y1 x2 y2 x y : ℚ)
  | horizTo (x : ℚ)
  | vertTo (y : ℚ)
  deriving DecidableEq, Repr

/-- visiblePoints from AreaChart.jsx line 126:
points.slice(0, Math.ceil(points.length * animationProgress) || 1). -/
def visibleSlice (points : List GeomPoint) (progress : ℚ) : List GeomPoint :=
  let c : ℤ := ⌈(points.length : ℚ) * progress⌉
  points.take (if c = 0 then 1 else c.toNat)

/-- Secant slope between two points, as written at AreaChart.jsx
lines 154 to 159. -/
def secant (p q : GeomPoint) : ℚ := (q.y - p.y) / (q.x - p.x)

/-- Tangent array from AreaChart.jsx lines 149 to 167: each endpoint uses
its single adjacent secant slope, each internal point uses 0 when the
product of its two neighboring secant slopes is nonpositive and otherwise
the harmonic mean 2 / (1/slopeLeft + 1/slopeRight). The JS loop pushes one
entry per index of the point array. -/
def tangents (pts : List GeomPoint) : List ℚ :=
  (List.range pts.length).map (fun i =>
    if i = 0 then secant (pts.getD 0 default) (pts.getD 1 default)
    else if i = pts.length - 1 then
      secant (pts.getD (pts.length - 2) default) (pts.getD (pts.length - 1) default)
    else
      let slopeLeft := secant (pts.getD (i - 1) default) (pts.getD i default)
      let slopeRight := secant (pts.getD i default) (pts.getD (i + 1) default)
      if slopeLeft * slopeRight ≤ 0 then 0
      else 2 / (1 / slopeLeft + 1 / slopeRight))

/-- Cubic bezier segment loop from AreaChart.jsx lines 172 to 183: for each
consecutive pair (p0, p1) with dx = (p1.x - p0.x) / 3, a C command with
control points (p0.x + dx, p0.y + tangent0 * dx) and
(p1.x - dx, p1.y - tangent1 * dx). -/
def bezierSegments (pts : List GeomPoint) : List PathCmd :=
  (List.range (pts.length - 1)).map (fun i =>
    let p0 := pts.getD i default
    let p1 := pts.getD (i + 1) default
    let dx := (p1.x - p0.x) / 3
    PathCmd.curveTo (p0.x + dx) (p0.y + (tangents pts).getD i 0 * dx)
      (p1.x - dx) (p1.y - (tangents pts).getD (i + 1) 0 * dx) p1.x p1.y)

/-- generateLinePath from AreaChart.jsx lines 123 to 186, with the emitted
path string modelled as a list of path commands. The smooth parameter of
the source is its default value (variant === curved) at every call site and
is inlined here. -/
def generateLinePath (variant : Variant) (progress : ℚ)
    (points : List GeomPoint) : List PathCmd :=
  if points.length < 2 then []
  else
    let vp := visibleSlice points progress
    if variant = Variant.stepped then
      PathCmd.moveTo (vp.getD 0 default).x (vp.getD 0 default).y ::
        ((List.range (vp.length - 1)).map (fun i =>
          let curr := vp.getD (i + 1) default
          [PathCmd.horizTo curr.x, PathCmd.vertTo curr.y])).flatten
    else if ¬ variant = Variant.curved then
      vp.enum.map (fun p =>
        if p.1 = 0 then PathCmd.moveTo p.2.x p.2.y else PathCmd.lineTo p.2.x p.2.y)
    else if vp.length < 2 then []
    else if vp.length = 2 then
      [PathCmd.moveTo (vp.getD 0 default).x (vp.getD 0 default).y,
       PathCmd.lineTo (vp.getD 1 default).x (vp.getD 1 default).y]
    else
      PathCmd.moveTo (vp.getD 0 default).x (vp.getD 0 default).y :: bezierSegments vp

/-- SeriesPoints is one entry of the allPoints result (AreaChart.jsx
lines 273 to 293). -/
structure SeriesPoints where
  key : String
  points : List GeomPoint
  index : ℕ
  hidden : Bool
  deriving Repr, Inhabited

/-- Walk of the yKeys list performed by allPoints: the JS forEach carries a
mutable stackedValues array (one running total per data index); a hidden
series is emitted with empty points and returns before touching the
accumulator; a visible series is projected with a copy of the current
accumulator and then, in stacked mode, adds item[key] || 0 at every index. -/
def allPointsAux (f : Frame) (data : List DataPoint) (isStacked : Bool)
    (hidden : List ℕ) : List String → ℕ → List ℚ → List SeriesPoints
  | [], _, _ => []
  | key :: ks, ki, sv =>
    if hidden.contains ki then
      ⟨key, [], ki, true⟩ :: allPointsAux f data isStacked hidden ks (ki + 1) sv
    else
      ⟨key, getPoints f data key (if isStacked then some sv else none), ki, false⟩ ::
        allPointsAux f data isStacked hidden ks (ki + 1)
          (if isStacked then List.zipWith (fun s item => s + getVal item key) sv data else sv)

/-- allPoints from AreaChart.jsx lines 273 to 293: the walk starts at series
index 0 with a zero accumulator of the same length as data. -/
def allPoints (f : Frame) (data : List DataPoint) (yKeys : List String)
    (isStacked : Bool) (hidden : List ℕ) : List SeriesPoints :=
  allPointsAux f data isStacked hidden yKeys 0 (data.map (fun _ => 0))

/-- Specification-side sum used to state the stacked invariant: the total of
the values that the series of ks contribute for one item, skipping hidden
series; ki is the absolute index of the first series of ks. -/
def visTotal (hidden : List ℕ) (item : DataPoint) : List String → ℕ → ℚ
  | [], _ => 0
  | k :: ks, ki =>
      (if hidden.contains ki then 0 else getVal item k) + visTotal hidden item ks (ki + 1)

/-- Tick values from renderYAxis (AreaChart.jsx lines 368 to 369), over the
JS number model: minValue + (valueRange / (ticks - 1)) * i with ticks = 5. -/
def tickValueJS (minValue : ℚ) (valueRange : JSVal) (i : ℕ) : JSVal :=
  JSVal.add (JSVal.num minValue)
    (JSVal.mul (JSVal.div valueRange (JSVal.num 4)) (JSVal.num i))

/-- y pixel of a grid line or tick label baseline from renderYAxis
(AreaChart.jsx lines 377 and 386):
chartY + chartHeight - ((tick - minValue) / valueRange) * chartHeight. -/
def tickYJS (chartY chartHeight minValue : ℚ) (valueRange : JSVal)
    (tick : JSVal) : JSVal :=
  JSVal.sub (JSVal.add (JSVal.num chartY) (JSVal.num chartHeight))
    (JSVal.mul (JSVal.div (JSVal.sub tick (JSVal.num minValue)) valueRange)
      (JSVal.num chartHeight))

/-- getAreaColor for a multi-series chart (AreaChart.jsx lines 265 to 270)
picks multiColors[index % multiColors.length] from the original series
index, with multiColors (ChartUtils.jsx line 18) holding 8 entries; reduced
here to the palette index it selects. The hidden set is not an input. -/
def getAreaColorIdx (index : ℕ) : ℕ := index % 8

/-- LegendItem models one entry of legendItems (AreaChart.jsx lines 454 to
458), with the color reduced to its multiColors index. -/
structure LegendItem where
  colorIdx : ℕ
  label : String
  inactive : Bool
  deriving DecidableEq, Repr, Inhabited

/-- legendItems from AreaChart.jsx lines 454 to 458: one entry per yKey, in
original order, colored by original index; only the inactive flag reads the
hidden set. -/
def legendItems (yKeys : List String) (hidden : List ℕ) : List LegendItem :=
  yKeys.enum.map (fun p => ⟨getAreaColorIdx p.1, p.2, hidden.contains p.1⟩)

end AreaChart

namespace ChartUtils

/-- Math.round semantics for a finite value: round half toward positive
infinity, i.e. the floor of q + 1/2. -/
def jsRound (q : ℚ) : ℤ := ⌊q + 1 / 2⌋

/-- Nearest data index from useCrosshairSnap (ChartUtils.jsx lines 382 to
384); AreaChart.jsx lines 302 to 304 duplicate the same computation:
stepWidth = chartWidth / Math.max(n - 1, 1), the rounded quotient of the
horizontal offset, clamped to the index range. -/
def snapNearestIndex (chartX chartWidth : ℚ) (n : ℕ) (mouseX : ℚ) : ℕ :=
  let stepWidth := chartWidth / max ((n : ℚ) - 1) 1
  let r := jsRound ((mouseX - chartX) / stepWidth)
  (max 0 (min r ((n : ℤ) - 1))).toNat

/-- Uniform index-to-pixel mapping shared by getPoints, snapX and the x-axis
labels: chartX + (i / Math.max(n - 1, 1)) * chartWidth. -/
def xPixel (chartX chartWidth : ℚ) (n : ℕ) (i : ℕ) : ℚ :=
  chartX + ((i : ℚ) / max ((n : ℚ) - 1) 1) * chartWidth

/-- snapX from ChartUtils.jsx line 386 (and AreaChart.jsx line 306): the
crosshair x pixel is recomputed from the snapped index, not taken from the
raw cursor position. -/
def snapX (chartX chartWidth : ℚ) (n : ℕ) (mouseX : ℚ) : ℚ :=
  chartX + ((snapNearestIndex chartX chartWidth n mouseX : ℚ) / max ((n : ℚ) - 1) 1) * chartWidth

end ChartUtils

namespace SparklineChart

/-- x coordinate of one sparkline point (SparklineChart source, points map):
x = (i / (data.length - 1)) * width, over the JS number model. The divisor
is data.length - 1 with no Math.max(n - 1, 1) guard. -/
def pointXJS (n : ℕ) (i : ℕ) (width : ℚ) : JSVal :=
  JSVal.mul (JSVal.div (JSVal.num i) (JSVal.num ((n : ℚ) - 1))) (JSVal.num width)

/-- Math.max over a spread nonempty rational list. The empty case is
unreachable in SparklineChart behind the early return on !data.length; the
value 0 stands in for it. -/
def listMax : List ℚ → ℚ
  | [] => 0
  | [a] => a
  | a :: b :: rest => max a (listMax (b :: rest))

/-- Math.min over a spread nonempty rational list, same convention as
listMax. -/
def listMin : List ℚ → ℚ
  | [] => 0
  | [a] => a
  | a :: b :: rest => min a (listMin (b :: rest))

/-- range from the SparklineChart source: maxValue - minValue || 1, so a
zero range (all values equal) is replaced by 1. -/
def range (data : List ℚ) : ℚ :=
  let r := listMax data - listMin data
  if r = 0 then 1 else r

/-- getY from the SparklineChart source, with padding = height * 0.1:
height - padding - ((value - minValue) / range) * (height - padding * 2). -/
def getY (data : List ℚ) (height : ℚ) (value : ℚ) : ℚ :=
  let padding := height * (1 / 10)
  height - padding - ((value - listMin data) / range data) * (height - padding * 2)

end SparklineChart

namespace RadialChart

/-- Slice is one entry of the PieChart slices array (RadialChart.jsx
lines 477 to 518). The color is reduced to the palette index getSliceColor
selects; the rose radius and the exploded cos/sin offsets are not modelled
(no claim touches them and they need trigonometric functions). -/
structure Slice where
  value : ℚ
  percentage : ℚ
  startAngle : ℚ
  endAngle : ℚ
  midAngle : ℚ
  colorIdx : ℕ
  hidden : Bool
  deriving DecidableEq, Repr, Inhabited

/-- Every palette in colorPalettes (ChartUtils.jsx lines 8 to 15) has
exactly 7 shades. -/
def paletteLength : ℕ := 7

/-- getSliceColor from RadialChart.jsx lines 469 to 474, reduced to the
palette index it selects: step = Math.max(1, Math.floor(palette.length /
data.length)), index = Math.min(i * step, palette.length - 1). It is only
evaluated for a data item, so data.length is at least 1 at every call and
natural-number division matches the JS floor of the float quotient. The
hidden set is not an input: the color depends only on the original index
and the full data length. -/
def sliceColorIndex (i : ℕ) (dataLen : ℕ) : ℕ :=
  let step := max 1 (paletteLength / dataLen)
  min (i * step) (paletteLength - 1)

/-- visibleData from RadialChart.jsx line 445:
data.filter((_, i) => !hiddenSlices.has(i)). -/
def visibleData (data : List DataPoint) (hidden : List ℕ) : List DataPoint :=
  (data.enum.filter (fun p => ! hidden.contains p.1)).map Prod.snd

/-- total from RadialChart.jsx line 446: the sum of d[valueKey] || 0 over
the visible data. -/
def pieTotal (data : List DataPoint) (valueKey : String) (hidden : List ℕ) : ℚ :=
  (visibleData data hidden).foldl (fun sum d => sum + getVal d valueKey) 0

/-- Walk of the data array performed by the slices computation
(RadialChart.jsx lines 484 to 517), carrying the mutable currentAngle: a
hidden slice is emitted with zero span at the current angle; a visible
slice sweeps (value / total) * totalAngle * animationProgress (0 when
total is not positive). -/
def pieSlicesAux (totalAngle : ℚ) (total : ℚ) (valueKey : String)
    (hidden : List ℕ) (progress : ℚ) (dataLen : ℕ) :
    List (ℕ × DataPoint) → ℚ → List Slice
  | [], _ => []
  | (i, item) :: rest, currentAngle =>
    if hidden.contains i then
      ⟨0, 0, currentAngle, currentAngle, currentAngle, sliceColorIndex i dataLen, true⟩ ::
        pieSlicesAux totalAngle total valueKey hidden progress dataLen rest currentAngle
    else
      let value := getVal item valueKey
      let angle := if 0 < total then (value / total) * totalAngle * progress else 0
      let sliceStartAngle := currentAngle
      let sliceEndAngle := currentAngle + angle
      let midAngle := (sliceStartAngle + sliceEndAngle) / 2
      ⟨value, if 0 < total then (value / total) * 100 else 0, sliceStartAngle,
        sliceEndAngle, midAngle, sliceColorIndex i dataLen, false⟩ ::
        pieSlicesAux totalAngle total valueKey hidden progress dataLen rest sliceEndAngle

/-- slices from RadialChart.jsx lines 477 to 518. The float constant
Math.PI is passed in as the parameter pi, so every theorem quantifying over
pi holds in particular at the actual float value: totalAngle is pi for the
semi variant and 2 * pi otherwise, the start angle is -pi for semi and
-pi / 2 otherwise. -/
def pieSlices (pi : ℚ) (isSemi : Bool) (data : List DataPoint)
    (valueKey : String) (hidden : List ℕ) (progress : ℚ) : List Slice :=
  let totalAngle := if isSemi then pi else 2 * pi
  let startAngle := if isSemi then -pi else -(pi / 2)
  pieSlicesAux totalAngle (pieTotal data valueKey hidden) valueKey hidden
    progress data.length data.enum startAngle

end RadialChart

/-- C2: the claim states that every chart composition maps data index to
x pixel dividing by max(n - 1, 1), so a single-point data sequence maps to
index 0 without division by zero, and in particular SparklineChart with a
one-element data array produces finite x coordinates. The SparklineChart
point mapping divides by data.length - 1 with no guard, so for a
one-element array (n = 1, i = 0, width = 100) it evaluates 0 / 0 and the
x coordinate is NaN; the guarded mapping used by AreaChart yields the
finite pixel 0 at the same input. -/
theorem C2_sparkline_single_point_x_is_nan :
    SparklineChart.pointXJS 1 0 100 = JSVal.nan ∧
      ChartUtils.xPixel 0 100 1 0 = 0 := by
  constructor
  · norm_num [SparklineChart.pointXJS, JSVal.div, JSVal.mul]
  · simp [ChartUtils.xPixel]

/-- C3: the claim states that every value-to-pixel mapping avoids division
by zero when all visible values coincide, in AreaChart as well as
SparklineChart. AreaChart has no guard: for the all-zero two-point data
set its valueRange is exactly 0 and the y coordinate of every point
evaluates (0 - 0) / 0 = NaN. SparklineChart is guarded: its range is
forced to 1 and its y coordinate stays finite on the same degenerate
data. -/
theorem C3_area_zero_range_y_is_nan :
    AreaChart.valueRangeJS [[("value", some 0)], [("value", some 0)]] ["value"] [] false
        = JSVal.num 0 ∧
      AreaChart.pointYJS 15 255 0
        (AreaChart.valueRangeJS [[("value", some 0)], [("value", some 0)]] ["value"] [] false)
        0 0 = JSVal.nan ∧
      SparklineChart.range [0, 0] = 1 ∧
      SparklineChart.getY [0, 0] 30 0 = 27 := by
  refine ⟨?_, ?_, ?_, ?_⟩
  · norm_num [AreaChart.valueRangeJS, AreaChart.maxValueJS, AreaChart.visibleYKeys, getVal,
      JSVal.maxList, JSVal.max2, JSVal.mul, JSVal.sub, JSVal.add, JSVal.neg, List.lookup]
  · norm_num [AreaChart.valueRangeJS, AreaChart.maxValueJS, AreaChart.visibleYKeys, getVal,
      AreaChart.pointYJS, JSVal.maxList, JSVal.max2, JSVal.mul, JSVal.sub, JSVal.add,
      JSVal.neg, JSVal.div, List.lookup]
  · norm_num [SparklineChart.range, SparklineChart.listMax, SparklineChart.listMin]
  · norm_num [SparklineChart.getY, SparklineChart.range, SparklineChart.listMax,
      SparklineChart.listMin]

/-- C7: the claim states that an empty data array yields empty geometry
without throwing and no NaN in any emitted output coordinate, including
axis tick positions. The geometry half holds: getPoints of empty data is
empty and generateLinePath emits the empty path. The tick half fails:
with empty data Math.max() is negative infinity, so valueRange is
negative infinity, the first tick value is -inf * 0 = NaN, and the tick y
pixel is NaN (shown here at the default frame chartY = 15,
chartHeight = 255 of a 400 x 300 chart). -/
theorem C7_empty_data_ticks_are_nan :
    AreaChart.getPoints ⟨50, 15, 350, 255, 0, 0⟩ [] "value" none = [] ∧
      AreaChart.generateLinePath AreaChart.Variant.curved 1 [] = [] ∧
      AreaChart.generateLinePath AreaChart.Variant.straight 1 [] = [] ∧
      AreaChart.valueRangeJS [] ["value"] [] false = JSVal.ninf ∧
      AreaChart.tickValueJS 0 (AreaChart.valueRangeJS [] ["value"] [] false) 0
        = JSVal.nan ∧
      AreaChart.tickYJS 15 255 0 (AreaChart.valueRangeJS [] ["value"] [] false)
        (AreaChart.tickValueJS 0 (AreaChart.valueRangeJS [] ["value"] [] false) 0)
        = JSVal.nan := by
  refine ⟨?_, ?_, ?_, ?_, ?_, ?_⟩
  · simp [AreaChart.getPoints]
  · simp [AreaChart.generateLinePath]
  · simp [AreaChart.generateLinePath]
  · norm_num [AreaChart.valueRangeJS, AreaChart.maxValueJS, AreaChart.visibleYKeys,
      JSVal.maxList, JSVal.max2, JSVal.mul, JSVal.sub, JSVal.add, JSVal.neg]
  · norm_num [AreaChart.valueRangeJS, AreaChart.maxValueJS, AreaChart.visibleYKeys,
      AreaChart.tickValueJS, JSVal.maxList, JSVal.max2, JSVal.mul, JSVal.sub, JSVal.add,
      JSVal.neg, JSVal.div]
  · norm_num [AreaChart.valueRangeJS, AreaChart.maxValueJS, AreaChart.visibleYKeys,
      AreaChart.tickValueJS, AreaChart.tickYJS, JSVal.maxList, JSVal.max2, JSVal.mul,
      JSVal.sub, JSVal.add, JSVal.neg, JSVal.div]

/-- C8: for a pie chart with two equal values [50, 50], no hidden slices and
animation progress 1, the default start angle is -90 degrees (top): slice 0
spans exactly [-pi/2, pi/2), slice 1 spans exactly [pi/2, 3pi/2), and each
percentage is exactly 50. The float constant Math.PI enters only as the
parameter pi, so the slice list is computed here for every value of pi, in
particular the actual one; -90, 90 and 270 degrees are -pi/2, pi/2 and
3pi/2 radians. -/
theorem C8_pie_two_equal_slices (pi : ℚ) :
    RadialChart.pieSlices pi false [[("value", some 50)], [("value", some 50)]] "value" [] 1 =
      [⟨50, 50, -(pi / 2), pi / 2, 0, 0, false⟩,
       ⟨50, 50, pi / 2, 3 * pi / 2, pi, 3, false⟩] := by
  norm_num [RadialChart.pieSlices, RadialChart.pieSlicesAux, RadialChart.pieTotal,
    RadialChart.visibleData, RadialChart.sliceColorIndex, RadialChart.paletteLength,
    getVal, List.enum, List.enumFrom, List.lookup]
  ring_nf
  norm_num

/-- Math.round of a natural number is itself. -/
lemma jsRound_natCast (k : ℕ) : ChartUtils.jsRound (k : ℚ) = (k : ℤ) := by
  rw [ChartUtils.jsRound, Int.floor_eq_iff]
  constructor
  · push_cast; linarith
  · push_cast; linarith

/-- Math.round rounds an exact half up, toward positive infinity. -/
lemma jsRound_natCast_add_half (k : ℕ) :
    ChartUtils.jsRound ((k : ℚ) + 1 / 2) = (k : ℤ) + 1 := by
  rw [ChartUtils.jsRound, Int.floor_eq_iff]
  constructor
  · push_cast; linarith
  · push_cast; linarith

/-- C4: the cartesian snap engine returns round((mouseX - chartX) /
stepWidth) clamped to [0, n - 1]; a pointer exactly at the pixel of data
index k snaps to k; a pointer exactly halfway between the pixels of k and
k + 1 snaps deterministically to k + 1 (round half up); and the returned
snap x pixel is recomputed from the snapped index, not taken from the raw
cursor. Stated for any plot rectangle with positive chartWidth. -/
theorem C4_snap_engine (chartX chartWidth : ℚ) (n k : ℕ) (mouseX : ℚ)
    (hW : 0 < chartWidth) :
    ((ChartUtils.snapNearestIndex chartX chartWidth n mouseX : ℤ)
        = max 0 (min (ChartUtils.jsRound ((mouseX - chartX)
            / (chartWidth / max ((n : ℚ) - 1) 1))) ((n : ℤ) - 1))) ∧
      (k < n → ChartUtils.snapNearestIndex chartX chartWidth n
          (ChartUtils.xPixel chartX chartWidth n k) = k) ∧
      (k + 1 < n → ChartUtils.snapNearestIndex chartX chartWidth n
          ((ChartUtils.xPixel chartX chartWidth n k
            + ChartUtils.xPixel chartX chartWidth n (k + 1)) / 2) = k + 1) ∧
      ChartUtils.snapX chartX chartWidth n mouseX
        = ChartUtils.xPixel chartX chartWidth n
            (ChartUtils.snapNearestIndex chartX chartWidth n mouseX) := by
  have hm : (0 : ℚ) < max ((n : ℚ) - 1) 1 := lt_of_lt_of_le one_pos (le_max_right _ _)
  refine ⟨?_, ?_, ?_, rfl⟩
  · rw [ChartUtils.snapNearestIndex]
    exact Int.toNat_of_nonneg (le_max_left _ _)
  · intro hk
    have hq : (ChartUtils.xPixel chartX chartWidth n k - chartX)
        / (chartWidth / max ((n : ℚ) - 1) 1) = (k : ℚ) := by
      rw [ChartUtils.xPixel]
      field_simp
      ring
    rw [ChartUtils.snapNearestIndex]
    simp only [hq, jsRound_natCast]
    have h1 : min (k : ℤ) ((n : ℤ) - 1) = (k : ℤ) := by omega
    rw [h1]
    omega
  · intro hk
    have hq : ((ChartUtils.xPixel chartX chartWidth n k
        + ChartUtils.xPixel chartX chartWidth n (k + 1)) / 2 - chartX)
        / (chartWidth / max ((n : ℚ) - 1) 1) = (k : ℚ) + 1 / 2 := by
      rw [ChartUtils.xPixel, ChartUtils.xPixel]
      field_simp
      ring
    rw [ChartUtils.snapNearestIndex]
    simp only [hq, jsRound_natCast_add_half]
    have h1 : min ((k : ℤ) + 1) ((n : ℤ) - 1) = (k : ℤ) + 1 := by omega
    rw [h1]
    omega

/-- Witness for C4 at a concrete chart: chartX = 50, chartWidth = 300,
four data points, k = 1, cursor at 137. -/
theorem C4_snap_engine_witness :
    ChartUtils.snapNearestIndex 50 300 4 (ChartUtils.xPixel 50 300 4 1) = 1 ∧
      ChartUtils.snapNearestIndex 50 300 4
        ((ChartUtils.xPixel 50 300 4 1 + ChartUtils.xPixel 50 300 4 2) / 2) = 2 ∧
      ChartUtils.snapX 50 300 4 137
        = ChartUtils.xPixel 50 300 4 (ChartUtils.snapNearestIndex 50 300 4 137) := by
  have h := C4_snap_engine 50 300 4 1 137 (by norm_num)
  exact ⟨h.2.1 (by norm_num), h.2.2.1 (by norm_num), h.2.2.2⟩

/-- Element access into a map over List.range. -/
lemma getD_map_range {α : Type} (f : ℕ → α) (n i : ℕ) (h : i < n) (d : α) :
    ((List.range n).map f).getD i d = f i := by
  simp [List.getD_eq_getElem?_getD, List.getElem?_map, List.getElem?_range, h]

/-- At animation progress 1 the visible slice is the whole point list. -/
lemma visibleSlice_one (pts : List AreaChart.GeomPoint) :
    AreaChart.visibleSlice pts 1 = pts := by
  cases pts with
  | nil => simp [AreaChart.visibleSlice]
  | cons a l =>
      rw [AreaChart.visibleSlice]
      simp only [mul_one, Int.ceil_natCast, List.length_cons]
      rw [if_neg (Int.natCast_ne_zero.mpr (Nat.succ_ne_zero _)), Int.toNat_natCast]
      exact List.take_of_length_le (by simp)

/-- C1: for an ordered sequence of at least 3 visible points with strictly
increasing x, the curved line-path generator computes each internal
tangent from its two neighboring secant slopes — zero when the two secant
slopes have opposite sign (and also when one of them is zero, where the JS
harmonic-mean expression 2 / (1/0 + 1/s) evaluates to 0 as well),
otherwise the harmonic mean 2 / (1/slopeLeft + 1/slopeRight) — uses the
single adjacent secant slope at each endpoint, and emits between each
consecutive pair of points a cubic Bezier segment whose control points sit
at one third and two thirds of the horizontal span, offset vertically by
tangent * (dx / 3). -/
theorem C1_monotone_curve_path (pts : List AreaChart.GeomPoint)
    (h3 : 3 ≤ pts.length)
    (_hmono : ∀ i, i + 1 < pts.length →
      (pts.getD i default).x < (pts.getD (i + 1) default).x) :
    AreaChart.generateLinePath AreaChart.Variant.curved 1 pts
      = AreaChart.PathCmd.moveTo (pts.getD 0 default).x (pts.getD 0 default).y
          :: AreaChart.bezierSegments pts ∧
    (AreaChart.tangents pts).getD 0 0
      = AreaChart.secant (pts.getD 0 default) (pts.getD 1 default) ∧
    (AreaChart.tangents pts).getD (pts.length - 1) 0
      = AreaChart.secant (pts.getD (pts.length - 2) default)
          (pts.getD (pts.length - 1) default) ∧
    (∀ i, 0 < i → i + 1 < pts.length →
      (AreaChart.secant (pts.getD (i - 1) default) (pts.getD i default)
          * AreaChart.secant (pts.getD i default) (pts.getD (i + 1) default) < 0 →
        (AreaChart.tangents pts).getD i 0 = 0) ∧
      (0 < AreaChart.secant (pts.getD (i - 1) default) (pts.getD i default)
          * AreaChart.secant (pts.getD i default) (pts.getD (i + 1) default) →
        (AreaChart.tangents pts).getD i 0
          = 2 / (1 / AreaChart.secant (pts.getD (i - 1) default) (pts.getD i default)
              + 1 / AreaChart.secant (pts.getD i default) (pts.getD (i + 1) default))) ∧
      (AreaChart.secant (pts.getD (i - 1) default) (pts.getD i default)
          * AreaChart.secant (pts.getD i default) (pts.getD (i + 1) default) = 0 →
        (AreaChart.tangents pts).getD i 0 = 0)) ∧
    (∀ i, i + 1 < pts.length →
      (AreaChart.generateLinePath AreaChart.Variant.curved 1 pts).getD (i + 1)
          (AreaChart.PathCmd.moveTo 0 0)
        = AreaChart.PathCmd.curveTo
            ((pts.getD i default).x
              + ((pts.getD (i + 1) default).x - (pts.getD i default).x) / 3)
            ((pts.getD i default).y
              + (AreaChart.tangents pts).getD i 0
                * (((pts.getD (i + 1) default).x - (pts.getD i default).x) / 3))
            ((pts.getD (i + 1) default).x
              - ((pts.getD (i + 1) default).x - (pts.getD i default).x) / 3)
            ((pts.getD (i + 1) default).y
              - (AreaChart.tangents pts).getD (i + 1) 0
                * (((pts.getD (i + 1) default).x - (pts.getD i default).x) / 3))
            (pts.getD (i + 1) default).x (pts.getD (i + 1) default).y) := by
  have hpath : AreaChart.generateLinePath AreaChart.Variant.curved 1 pts
      = AreaChart.PathCmd.moveTo (pts.getD 0 default).x (pts.getD 0 default).y
          :: AreaChart.bezierSegments pts := by
    rw [AreaChart.generateLinePath, if_neg (by omega)]
    simp only [visibleSlice_one]
    rw [if_neg (by simp), if_neg (by simp), if_neg (by omega), if_neg (by omega)]
  refine ⟨hpath, ?_, ?_, ?_, ?_⟩
  · rw [AreaChart.tangents, getD_map_range _ _ _ (by omega)]
    simp
  · rw [AreaChart.tangents, getD_map_range _ _ _ (by omega)]
    rw [if_neg (by omega), if_pos rfl]
  · intro i h0 hi
    rw [AreaChart.tangents, getD_map_range _ _ _ (by omega)]
    rw [if_neg (by omega), if_neg (by omega)]
    refine ⟨?_, ?_, ?_⟩
    · intro h
      rw [if_pos (le_of_lt h)]
    · intro h
      rw [if_neg (not_le.mpr h)]
    · intro h
      rw [if_pos (le_of_eq h)]
  · intro i hi
    rw [hpath, List.getD_cons_succ, AreaChart.bezierSegments,
      getD_map_range _ _ _ (by omega)]

/-- Points 0, 30, 60 on the x axis with a direction change at the middle
point, used to witness C1 at a concrete input. -/
def mono3Points : List AreaChart.GeomPoint :=
  [⟨0, 0, 0, 0⟩, ⟨30, 30, 30, 0⟩, ⟨60, 20, 20, 0⟩]

/-- Witness for C1: the three concrete points are strictly increasing in x,
the path is the moveTo plus the bezier segments, and the middle tangent is
forced to zero because the two secant slopes 1 and -1/3 have product
-1/3 < 0. -/
theorem C1_monotone_curve_path_witness :
    AreaChart.generateLinePath AreaChart.Variant.curved 1 mono3Points
      = AreaChart.PathCmd.moveTo (mono3Points.getD 0 default).x
          (mono3Points.getD 0 default).y
          :: AreaChart.bezierSegments mono3Points ∧
      (AreaChart.tangents mono3Points).getD 1 0 = 0 := by
  have hm : ∀ i, i + 1 < mono3Points.length →
      (mono3Points.getD i default).x < (mono3Points.getD (i + 1) default).x := by
    intro i hi
    have h2 : i = 0 ∨ i = 1 := by
      simp only [mono3Points, List.length_cons, List.length_nil] at hi
      omega
    rcases h2 with rfl | rfl <;> norm_num [mono3Points, List.getD]
  have h := C1_monotone_curve_path mono3Points (by norm_num [mono3Points]) hm
  refine ⟨h.1, ?_⟩
  refine (h.2.2.2.1 1 one_pos (by norm_num [mono3Points])).1 ?_
  norm_num [mono3Points, AreaChart.secant, List.getD]


/-- Congruence of the stacked per-item reduce over yKeys under pointwise equal field reads. -/
lemma foldl_getVal_congr (d d2 : DataPoint) (keys : List String)
    (h : ∀ key ∈ keys, getVal d key = getVal d2 key) :
    ∀ s : ℚ, keys.foldl (fun sum key => sum + getVal d key) s
      = keys.foldl (fun sum key => sum + getVal d2 key) s := by
  induction keys with
  | nil => intro s; rfl
  | cons k ks ih =>
      intro s
      simp only [List.foldl_cons]
      rw [h k (by simp)]
      exact ih (fun key hk => h key (by simp [hk])) _

/-- Filtering an enumerated list by index keeps equal entries when the two lists agree at every kept index. -/
lemma enumFrom_filter_congr (hidden : List ℕ) :
    ∀ (d d2 : List DataPoint) (n : ℕ), d.length = d2.length →
    (∀ i, i < d.length → hidden.contains (n + i) = false → d.getD i [] = d2.getD i []) →
    (List.enumFrom n d).filter (fun p => ! hidden.contains p.1)
      = (List.enumFrom n d2).filter (fun p => ! hidden.contains p.1) := by
  intro d
  induction d with
  | nil =>
      intro d2 n hlen _
      cases d2 with
      | nil => rfl
      | cons b l2 => simp at hlen
  | cons a l ih =>
      intro d2 n hlen hsame
      cases d2 with
      | nil => simp at hlen
      | cons b l2 =>
          have hrest : (List.enumFrom (n + 1) l).filter (fun p => ! hidden.contains p.1)
              = (List.enumFrom (n + 1) l2).filter (fun p => ! hidden.contains p.1) := by
            apply ih l2 (n + 1) (by simpa using hlen)
            intro i hi hc
            have := hsame (i + 1) (by simpa using Nat.succ_lt_succ hi)
              (by rw [show n + (i + 1) = n + 1 + i by omega]; exact hc)
            simpa using this
          simp only [List.enumFrom]
          rw [List.filter_cons, List.filter_cons]
          cases hcn : hidden.contains n with
          | true =>
              simp only [hcn, Bool.not_true]
              rw [if_neg Bool.false_ne_true, if_neg Bool.false_ne_true]
              exact hrest
          | false =>
              have hab : a = b := by
                have := hsame 0 (by simp) (by simpa using hcn)
                simpa using this
              subst hab
              simp only [hcn, Bool.not_false]
              rw [if_pos trivial, if_pos trivial, hrest]

/-- pieTotal reads only the items at indices outside the hidden set. -/
lemma pieTotal_congr (data data2 : List DataPoint) (valueKey : String) (hidden : List ℕ)
    (hlen : data.length = data2.length)
    (hsame : ∀ i, i < data.length → hidden.contains i = false →
      data.getD i [] = data2.getD i []) :
    RadialChart.pieTotal data valueKey hidden = RadialChart.pieTotal data2 valueKey hidden := by
  rw [RadialChart.pieTotal, RadialChart.pieTotal, RadialChart.visibleData, RadialChart.visibleData]
  have he : (List.enum data).filter (fun p => ! hidden.contains p.1)
      = (List.enum data2).filter (fun p => ! hidden.contains p.1) := by
    rw [show List.enum data = List.enumFrom 0 data from rfl,
        show List.enum data2 = List.enumFrom 0 data2 from rfl]
    apply enumFrom_filter_congr hidden data data2 0 hlen
    intro i hi hc
    exact hsame i hi (by simpa using hc)
  rw [he]

/-- Every slice the walk emits carries the color index of its original data index. -/
lemma pieSlicesAux_colorIdx (ta t : ℚ) (vk : String) (hidden : List ℕ) (prog : ℚ) (dl : ℕ) :
    ∀ (l : List (ℕ × DataPoint)) (c : ℚ) (j : ℕ), j < l.length →
    ((RadialChart.pieSlicesAux ta t vk hidden prog dl l c).getD j default).colorIdx
      = RadialChart.sliceColorIndex (l.getD j (0, [])).1 dl := by
  intro l
  induction l with
  | nil => intro c j hj; simp at hj
  | cons p rest ih =>
      intro c j hj
      obtain ⟨i, item⟩ := p
      rw [RadialChart.pieSlicesAux]
      cases j with
      | zero =>
          cases hc : hidden.contains i with
          | true => simp [hc]
          | false => simp [hc]
      | succ j2 =>
          cases hc : hidden.contains i with
          | true => simpa [hc] using ih _ j2 (by simpa using hj)
          | false => simpa [hc] using ih _ j2 (by simpa using hj)

/-- PieChart slice colors are computed from the original index and the full data length, for every hidden set. -/
lemma pieSlices_colorIdx (pi : ℚ) (isSemi : Bool) (data : List DataPoint)
    (valueKey : String) (hidden : List ℕ) (progress : ℚ) (i : ℕ) (hi : i < data.length) :
    ((RadialChart.pieSlices pi isSemi data valueKey hidden progress).getD i default).colorIdx
      = RadialChart.sliceColorIndex i data.length := by
  rw [RadialChart.pieSlices]
  have h1 := pieSlicesAux_colorIdx (if isSemi then pi else 2 * pi)
    (RadialChart.pieTotal data valueKey hidden) valueKey hidden progress data.length
    data.enum (if isSemi then -pi else -(pi / 2)) i (by simpa using hi)
  rw [h1]
  have h2 : (data.enum.getD i (0, ([] : DataPoint))).1 = i := by
    rw [List.getD_eq_getElem?_getD, List.getElem?_enum, List.getElem?_eq_getElem hi]
    simp
  rw [h2]

/-- Element access into a map over an enumerated list. -/
lemma getD_map_enum {α β : Type} (f : ℕ × α → β) (l : List α) (i : ℕ)
    (h : i < l.length) (d : β) (d0 : α) :
    ((l.enum).map f).getD i d = f (i, l.getD i d0) := by
  rw [List.getD_eq_getElem?_getD, List.getElem?_map, List.getElem?_enum,
    List.getElem?_eq_getElem h, List.getD_eq_getElem l d0 h]
  simp

/-- Each legend entry carries the color of its original index and its own key; only the inactive flag reads the hidden set. -/
lemma legendItems_getD (yKeys : List String) (hidden : List ℕ) (i : ℕ)
    (hi : i < yKeys.length) :
    (AreaChart.legendItems yKeys hidden).getD i default
      = ⟨AreaChart.getAreaColorIdx i, yKeys.getD i "", hidden.contains i⟩ := by
  rw [AreaChart.legendItems, getD_map_enum _ _ _ hi _ ""]

/-- With at least one visible series, maxValue reads only the visible keys of each item: changing values stored under hidden keys cannot change it. -/
lemma maxValueJS_congr (data data2 : List DataPoint) (yKeys : List String)
    (hidden : List ℕ) (isStacked : Bool)
    (hvis : AreaChart.visibleYKeys yKeys hidden ≠ [])
    (hlen : data.length = data2.length)
    (hsame : ∀ i, i < data.length → ∀ key, key ∈ AreaChart.visibleYKeys yKeys hidden →
      getVal (data.getD i []) key = getVal (data2.getD i []) key) :
    AreaChart.maxValueJS data yKeys hidden isStacked
      = AreaChart.maxValueJS data2 yKeys hidden isStacked := by
  have hpos : 0 < (AreaChart.visibleYKeys yKeys hidden).length := List.length_pos.mpr hvis
  rw [AreaChart.maxValueJS, AreaChart.maxValueJS]
  simp only [if_pos hpos]
  cases isStacked with
  | true =>
      have hmap : data.map (fun d =>
            JSVal.num ((AreaChart.visibleYKeys yKeys hidden).foldl
              (fun sum key => sum + getVal d key) 0))
          = data2.map (fun d =>
            JSVal.num ((AreaChart.visibleYKeys yKeys hidden).foldl
              (fun sum key => sum + getVal d key) 0)) := by
        apply List.ext_getElem (by simpa using hlen)
        intro i h1 h2
        have hi : i < data.length := by simpa using h1
        have hi2 : i < data2.length := by simpa using h2
        simp only [List.getElem_map]
        congr 1
        have hd : data[i] = data.getD i [] := (List.getD_eq_getElem data [] hi).symm
        have hd2 : data2[i] = data2.getD i [] := (List.getD_eq_getElem data2 [] hi2).symm
        rw [hd, hd2]
        exact foldl_getVal_congr _ _ _ (fun key hk => hsame i hi key hk) 0
      simp only [hmap]
      simp
  | false =>
      have hmap : data.map (fun d =>
            (AreaChart.visibleYKeys yKeys hidden).map (fun key => JSVal.num (getVal d key)))
          = data2.map (fun d =>
            (AreaChart.visibleYKeys yKeys hidden).map (fun key => JSVal.num (getVal d key))) := by
        apply List.ext_getElem (by simpa using hlen)
        intro i h1 h2
        have hi : i < data.length := by simpa using h1
        have hi2 : i < data2.length := by simpa using h2
        simp only [List.getElem_map]
        apply List.map_congr_left
        intro key hk
        have hd : data[i] = data.getD i [] := (List.getD_eq_getElem data [] hi).symm
        have hd2 : data2[i] = data2.getD i [] := (List.getD_eq_getElem data2 [] hi2).symm
        rw [hd, hd2, hsame i hi key hk]
      simp only [hmap]
      simp

/-- C6 counterexample: the claim says hiding a series removes its values
from the maxValue computation for every hidden set, but when every series
is hidden AreaChart falls back to computing maxValue over all yKeys: with
both series of [(a, 5), (b, 3)] hidden, maxValue is 5 * 1.1 = 11/2, and
changing only the hidden series values (a to 2) changes it to 33/10. -/
theorem C6_hidden_exclusion_counterexample :
    AreaChart.visibleYKeys ["a", "b"] [0, 1] = [] ∧
      AreaChart.maxValueJS [[("a", some 5), ("b", some 3)]] ["a", "b"] [0, 1] false
        = JSVal.num (11 / 2) ∧
      AreaChart.maxValueJS [[("a", some 2), ("b", some 3)]] ["a", "b"] [0, 1] false
        = JSVal.num (33 / 10) ∧
      AreaChart.maxValueJS [[("a", some 5), ("b", some 3)]] ["a", "b"] [0, 1] false
        ≠ AreaChart.maxValueJS [[("a", some 2), ("b", some 3)]] ["a", "b"] [0, 1] false := by
  have hb : (("b" == "a") : Bool) = false := by decide
  refine ⟨?_, ?_, ?_, ?_⟩ <;>
    norm_num [AreaChart.visibleYKeys, AreaChart.maxValueJS, getVal, JSVal.maxList,
      JSVal.max2, JSVal.mul, List.enum, List.enumFrom, List.lookup, hb]

/-- Every visible key is one of the original yKeys. -/
lemma visibleYKeys_subset (yKeys : List String) (hidden : List ℕ) (key : String)
    (h : key ∈ AreaChart.visibleYKeys yKeys hidden) : key ∈ yKeys := by
  simp only [AreaChart.visibleYKeys, List.mem_map, List.mem_filter] at h
  obtain ⟨⟨i, k⟩, ⟨hmem, _⟩, rfl⟩ := h
  have h3 := List.mem_enumFrom hmem
  have h4 : i < yKeys.length := by simpa using h3.2.1
  have h5 : k = yKeys[i] := by simpa using h3.2.2
  rw [h5]
  exact List.getElem_mem h4

/-- Congruence of the per-item stacked sums under pointwise equal field reads. -/
lemma mapStacked_congr (data data2 : List DataPoint) (keys : List String)
    (hlen : data.length = data2.length)
    (hsame : ∀ i, i < data.length → ∀ key, key ∈ keys →
      getVal (data.getD i []) key = getVal (data2.getD i []) key) :
    data.map (fun d => JSVal.num (keys.foldl (fun sum key => sum + getVal d key) 0))
      = data2.map (fun d => JSVal.num (keys.foldl (fun sum key => sum + getVal d key) 0)) := by
  apply List.ext_getElem (by simpa using hlen)
  intro i h1 h2
  have hi : i < data.length := by simpa using h1
  have hi2 : i < data2.length := by simpa using h2
  simp only [List.getElem_map]
  congr 1
  have hd : data[i] = data.getD i [] := (List.getD_eq_getElem data [] hi).symm
  have hd2 : data2[i] = data2.getD i [] := (List.getD_eq_getElem data2 [] hi2).symm
  rw [hd, hd2]
  exact foldl_getVal_congr _ _ _ (fun key hk => hsame i hi key hk) 0

/-- Congruence of the per-item flat value lists under pointwise equal field reads. -/
lemma mapFlat_congr (data data2 : List DataPoint) (keys : List String)
    (hlen : data.length = data2.length)
    (hsame : ∀ i, i < data.length → ∀ key, key ∈ keys →
      getVal (data.getD i []) key = getVal (data2.getD i []) key) :
    data.map (fun d => keys.map (fun key => JSVal.num (getVal d key)))
      = data2.map (fun d => keys.map (fun key => JSVal.num (getVal d key))) := by
  apply List.ext_getElem (by simpa using hlen)
  intro i h1 h2
  have hi : i < data.length := by simpa using h1
  have hi2 : i < data2.length := by simpa using h2
  simp only [List.getElem_map]
  apply List.map_congr_left
  intro key hk
  have hd : data[i] = data.getD i [] := (List.getD_eq_getElem data [] hi).symm
  have hd2 : data2[i] = data2.getD i [] := (List.getD_eq_getElem data2 [] hi2).symm
  rw [hd, hd2, hsame i hi key hk]

/-- maxValue depends on the data only through the getVal reads at the yKeys, in both stacked and flat mode and for any hidden set. -/
lemma maxValueJS_congr_all (data data2 : List DataPoint) (yKeys : List String)
    (hidden : List ℕ) (isStacked : Bool)
    (hlen : data.length = data2.length)
    (hsame : ∀ i, i < data.length → ∀ key, key ∈ yKeys →
      getVal (data.getD i []) key = getVal (data2.getD i []) key) :
    AreaChart.maxValueJS data yKeys hidden isStacked = AreaChart.maxValueJS data2 yKeys hidden isStacked := by
  rw [AreaChart.maxValueJS, AreaChart.maxValueJS]
  by_cases hv : 0 < (AreaChart.visibleYKeys yKeys hidden).length
  · simp only [if_pos hv]
    have hsub : ∀ i, i < data.length → ∀ key, key ∈ AreaChart.visibleYKeys yKeys hidden →
        getVal (data.getD i []) key = getVal (data2.getD i []) key :=
      fun i hi key hk => hsame i hi key (visibleYKeys_subset yKeys hidden key hk)
    rw [mapStacked_congr data data2 _ hlen hsub, mapFlat_congr data data2 _ hlen hsub]
  · simp only [if_neg hv]
    rw [mapStacked_congr data data2 _ hlen hsame, mapFlat_congr data data2 _ hlen hsame]

/-- getPoints depends on the data only through the getVal reads at its key. -/
lemma getPoints_congr (f : AreaChart.Frame) (data data2 : List DataPoint) (key : String)
    (osv : Option (List ℚ))
    (hlen : data.length = data2.length)
    (hsame : ∀ i, i < data.length →
      getVal (data.getD i []) key = getVal (data2.getD i []) key) :
    AreaChart.getPoints f data key osv = AreaChart.getPoints f data2 key osv := by
  apply List.ext_getElem (by simp [AreaChart.getPoints, hlen])
  intro i h1 h2
  have hi : i < data.length := by simpa [AreaChart.getPoints] using h1
  have hi2 : i < data2.length := by simpa [AreaChart.getPoints] using h2
  simp only [AreaChart.getPoints, List.getElem_map, List.getElem_enum]
  have hd : data[i] = data.getD i [] := (List.getD_eq_getElem data [] hi).symm
  have hd2 : data2[i] = data2.getD i [] := (List.getD_eq_getElem data2 [] hi2).symm
  rw [hd, hd2, hsame i hi, hlen]

/-- The stacked accumulator update depends on the data only through the getVal reads at its key. -/
lemma zipWith_getVal_congr (data data2 : List DataPoint) (k : String) (sv : List ℚ)
    (hlen : data.length = data2.length)
    (hk : ∀ i, i < data.length → getVal (data.getD i []) k = getVal (data2.getD i []) k) :
    List.zipWith (fun s item => s + getVal item k) sv data
      = List.zipWith (fun s item => s + getVal item k) sv data2 := by
  apply List.ext_getElem (by simp [hlen])
  intro i h1 h2
  have h1q : i < sv.length ∧ i < data.length := by simpa using h1
  have hi : i < data.length := h1q.2
  have hi2 : i < data2.length := hlen ▸ hi
  simp only [List.getElem_zipWith]
  have hd : data[i] = data.getD i [] := (List.getD_eq_getElem data [] hi).symm
  have hd2 : data2[i] = data2.getD i [] := (List.getD_eq_getElem data2 [] hi2).symm
  rw [hd, hd2, hk i hi]

/-- The allPoints walk depends on the data only through the getVal reads at the walked keys. -/
lemma allPointsAux_congr (f : AreaChart.Frame) (data data2 : List DataPoint)
    (isStacked : Bool) (hidden : List ℕ) (hlen : data.length = data2.length) :
    ∀ (ks : List String) (ki : ℕ) (sv : List ℚ),
    (∀ i, i < data.length → ∀ key, key ∈ ks →
      getVal (data.getD i []) key = getVal (data2.getD i []) key) →
    AreaChart.allPointsAux f data isStacked hidden ks ki sv
      = AreaChart.allPointsAux f data2 isStacked hidden ks ki sv := by
  intro ks
  induction ks with
  | nil => intro ki sv _; rfl
  | cons k l ih =>
      intro ki sv hsame
      have hk : ∀ i, i < data.length →
          getVal (data.getD i []) k = getVal (data2.getD i []) k :=
        fun i hi => hsame i hi k (by simp)
      have hrest : ∀ i, i < data.length → ∀ key, key ∈ l →
          getVal (data.getD i []) key = getVal (data2.getD i []) key :=
        fun i hi key hkey => hsame i hi key (by simp [hkey])
      rw [AreaChart.allPointsAux, AreaChart.allPointsAux]
      cases hc : hidden.contains ki with
      | true =>
          rw [if_pos rfl, if_pos rfl, ih (ki + 1) sv hrest]
      | false =>
          rw [if_neg Bool.false_ne_true, if_neg Bool.false_ne_true,
            getPoints_congr f data data2 k (if isStacked then some sv else none) hlen hk,
            zipWith_getVal_congr data data2 k sv hlen hk,
            ih (ki + 1)
              (if isStacked then List.zipWith (fun s item => s + getVal item k) sv data2 else sv)
              hrest]

/-- allPoints depends on the data only through the getVal reads at the yKeys. -/
lemma allPoints_congr (f : AreaChart.Frame) (data data2 : List DataPoint)
    (yKeys : List String) (isStacked : Bool) (hidden : List ℕ)
    (hlen : data.length = data2.length)
    (hsame : ∀ i, i < data.length → ∀ key, key ∈ yKeys →
      getVal (data.getD i []) key = getVal (data2.getD i []) key) :
    AreaChart.allPoints f data yKeys isStacked hidden
      = AreaChart.allPoints f data2 yKeys isStacked hidden := by
  rw [AreaChart.allPoints, AreaChart.allPoints]
  have hz : data.map (fun _ => (0 : ℚ)) = data2.map (fun _ => (0 : ℚ)) := by
    apply List.ext_getElem (by simpa using hlen)
    intro i h1 h2
    simp
  rw [hz]
  exact allPointsAux_congr f data data2 isStacked hidden hlen yKeys 0 _ hsame

/-- C9: a data item whose value at an accessor key is undefined (absent) or
null reads as 0 at every accessor site (item[key] || 0), and every numeric
aggregation — the max computation, the stacked accumulation and the
coordinate mapping — depends on the data only through those reads, so
replacing a missing field by an explicit 0 leaves every computed point,
every generated path command list, maxValue and allPoints unchanged: a
missing field never injects NaN into a path string. -/
theorem C9_missing_field_reads_as_zero :
    (∀ (item : DataPoint) (key : String), item.lookup key = none → getVal item key = 0) ∧
    (∀ (item : DataPoint) (key : String), item.lookup key = some none → getVal item key = 0) ∧
    (∀ (f : AreaChart.Frame) (data data2 : List DataPoint) (key : String)
        (osv : Option (List ℚ)) (variant : AreaChart.Variant) (progress : ℚ),
      data.length = data2.length →
      (∀ i, i < data.length → getVal (data.getD i []) key = getVal (data2.getD i []) key) →
      AreaChart.getPoints f data key osv = AreaChart.getPoints f data2 key osv ∧
      AreaChart.generateLinePath variant progress (AreaChart.getPoints f data key osv)
        = AreaChart.generateLinePath variant progress (AreaChart.getPoints f data2 key osv)) ∧
    (∀ (f : AreaChart.Frame) (data data2 : List DataPoint) (yKeys : List String)
        (hidden : List ℕ) (isStacked : Bool),
      data.length = data2.length →
      (∀ i, i < data.length → ∀ key, key ∈ yKeys →
        getVal (data.getD i []) key = getVal (data2.getD i []) key) →
      AreaChart.maxValueJS data yKeys hidden isStacked
          = AreaChart.maxValueJS data2 yKeys hidden isStacked ∧
      AreaChart.allPoints f data yKeys isStacked hidden
          = AreaChart.allPoints f data2 yKeys isStacked hidden) := by
  refine ⟨?_, ?_, ?_, ?_⟩
  · intro item key h
    simp [getVal, h]
  · intro item key h
    simp [getVal, h]
  · intro f data data2 key osv variant progress hlen hsame
    have hgp := getPoints_congr f data data2 key osv hlen hsame
    exact ⟨hgp, by rw [hgp]⟩
  · intro f data data2 yKeys hidden isStacked hlen hsame
    exact ⟨maxValueJS_congr_all data data2 yKeys hidden isStacked hlen hsame,
      allPoints_congr f data data2 yKeys isStacked hidden hlen hsame⟩

/-- Witness for C9: an absent key and a null field read as 0, and the data
set with a fully missing second item computes the same points and the same
maxValue as the data set with an explicit zero field. -/
theorem C9_missing_field_reads_as_zero_witness :
    getVal [("a", some 3)] "missing" = 0 ∧
    getVal [("b", none)] "b" = 0 ∧
    AreaChart.getPoints ⟨0, 0, 100, 100, 0, 1⟩ [[("v", some 3)], []] "v" none
      = AreaChart.getPoints ⟨0, 0, 100, 100, 0, 1⟩ [[("v", some 3)], [("v", some 0)]] "v" none ∧
    AreaChart.maxValueJS [[("v", some 3)], []] ["v"] [] true
      = AreaChart.maxValueJS [[("v", some 3)], [("v", some 0)]] ["v"] [] true := by
  have h := C9_missing_field_reads_as_zero
  exact ⟨h.1 [("a", some 3)] "missing" (by decide),
    h.2.1 [("b", none)] "b" (by decide),
    (h.2.2.1 ⟨0, 0, 100, 100, 0, 1⟩ [[("v", some 3)], []] [[("v", some 3)], [("v", some 0)]]
      "v" none AreaChart.Variant.straight 1 rfl (by decide)).1,
    (h.2.2.2 ⟨0, 0, 100, 100, 0, 1⟩ [[("v", some 3)], []] [[("v", some 3)], [("v", some 0)]]
      ["v"] [] true rfl (by decide)).1⟩


/-- The specification sum splits over list append, shifting the start index. -/
lemma visTotal_append (hidden : List ℕ) (item : DataPoint) :
    ∀ (l1 l2 : List String) (ki : ℕ),
    AreaChart.visTotal hidden item (l1 ++ l2) ki
      = AreaChart.visTotal hidden item l1 ki + AreaChart.visTotal hidden item l2 (ki + l1.length) := by
  intro l1
  induction l1 with
  | nil => intro l2 ki; simp [AreaChart.visTotal]
  | cons k l ih =>
      intro l2 ki
      rw [List.cons_append, AreaChart.visTotal, AreaChart.visTotal, ih l2 (ki + 1), List.length_cons,
        show ki + 1 + l.length = ki + (l.length + 1) by omega]
      ring

/-- The specification sum over an all-hidden range of series is zero. -/
lemma visTotal_all_hidden (hidden : List ℕ) (item : DataPoint) :
    ∀ (ks : List String) (ki : ℕ),
    (∀ j, j < ks.length → hidden.contains (ki + j) = true) →
    AreaChart.visTotal hidden item ks ki = 0 := by
  intro ks
  induction ks with
  | nil => intro ki _; rfl
  | cons k l ih =>
      intro ki hall
      have h0 : hidden.contains ki = true := by simpa using hall 0 (by simp)
      rw [AreaChart.visTotal, if_pos h0, ih (ki + 1) (fun j hj => by
        have := hall (j + 1) (by simpa using Nat.succ_lt_succ hj)
        rwa [show ki + (j + 1) = ki + 1 + j by omega] at this)]
      simp

/-- Element form of getPoints in stacked mode: the point at index i carries the value read from the item and the accumulator entry as stackedBase. -/
lemma getPoints_stacked_getD (f : AreaChart.Frame) (data : List DataPoint) (key : String)
    (sv : List ℚ) (i : ℕ) (hi : i < data.length) :
    (AreaChart.getPoints f data key (some sv)).getD i default
      = ⟨f.chartX + ((i : ℚ) / max ((data.length : ℚ) - 1) 1) * f.chartWidth,
         f.chartY + f.chartHeight
           - ((getVal (data.getD i []) key + sv.getD i 0 - f.minValue) / f.valueRange)
             * f.chartHeight,
         getVal (data.getD i []) key, sv.getD i 0⟩ := by
  have hd : data[i]?.getD [] = data[i] := by
    rw [List.getElem?_eq_getElem hi]
    rfl
  rw [AreaChart.getPoints, List.getD_eq_getElem?_getD, List.getElem?_map, List.getElem?_enum,
    List.getElem?_eq_getElem hi]
  simp [hd]

/-- A hidden series is emitted with empty points, its key, its absolute index and the hidden flag. -/
lemma allPointsAux_hidden_entry (f : AreaChart.Frame) (data : List DataPoint) (isStacked : Bool)
    (hidden : List ℕ) :
    ∀ (ks : List String) (ki : ℕ) (sv : List ℚ) (j : ℕ), j < ks.length →
    hidden.contains (ki + j) = true →
    (AreaChart.allPointsAux f data isStacked hidden ks ki sv).getD j default
      = ⟨ks.getD j "", [], ki + j, true⟩ := by
  intro ks
  induction ks with
  | nil => intro ki sv j hj _; simp at hj
  | cons k l ih =>
      intro ki sv j hj hc
      rw [AreaChart.allPointsAux]
      cases j with
      | zero =>
          rw [Nat.add_zero] at hc
          rw [hc, if_pos rfl]
          simp
      | succ j2 =>
          have hj2 : j2 < l.length := by simpa using hj
          have hc2 : hidden.contains (ki + 1 + j2) = true := by
            rwa [show ki + 1 + j2 = ki + (j2 + 1) by omega]
          have hrhs : ki + (j2 + 1) = ki + 1 + j2 := by omega
          cases hcc : hidden.contains ki with
          | true =>
              rw [if_pos rfl]
              simp only [List.getD_cons_succ]
              rw [ih (ki + 1) sv j2 hj2 hc2, hrhs]
          | false =>
              rw [if_neg Bool.false_ne_true]
              simp only [List.getD_cons_succ]
              rw [ih (ki + 1) _ j2 hj2 hc2, hrhs]

/-- Invariant of the allPoints walk in stacked mode: the point of a visible series at data index i has stackedBase equal to the incoming accumulator entry plus the visible-series total of the keys already walked. -/
lemma allPointsAux_stacked_entry (f : AreaChart.Frame) (data : List DataPoint) (hidden : List ℕ) :
    ∀ (ks : List String) (ki : ℕ) (sv : List ℚ), sv.length = data.length →
    ∀ j, j < ks.length → hidden.contains (ki + j) = false →
    ∀ i, i < data.length →
    ((AreaChart.allPointsAux f data true hidden ks ki sv).getD j default).points.getD i default
      = ⟨f.chartX + ((i : ℚ) / max ((data.length : ℚ) - 1) 1) * f.chartWidth,
         f.chartY + f.chartHeight
           - ((getVal (data.getD i []) (ks.getD j "")
               + (sv.getD i 0 + AreaChart.visTotal hidden (data.getD i []) (ks.take j) ki)
               - f.minValue) / f.valueRange) * f.chartHeight,
         getVal (data.getD i []) (ks.getD j ""),
         sv.getD i 0 + AreaChart.visTotal hidden (data.getD i []) (ks.take j) ki⟩ := by
  intro ks
  induction ks with
  | nil => intro ki sv hsv j hj; simp at hj
  | cons k l ih =>
      intro ki sv hsv j hj hc i hi
      rw [AreaChart.allPointsAux]
      cases j with
      | zero =>
          rw [Nat.add_zero] at hc
          rw [hc, if_neg Bool.false_ne_true]
          simp only [List.getD_cons_zero, List.take_zero]
          rw [if_pos trivial, getPoints_stacked_getD f data k sv i hi,
            show AreaChart.visTotal hidden (data.getD i []) [] ki = 0 from rfl,
            AreaChart.GeomPoint.mk.injEq]
          refine ⟨by ring, by ring, by ring, by ring⟩
      | succ j2 =>
          have hj2 : j2 < l.length := by simpa using hj
          have hc2 : hidden.contains (ki + 1 + j2) = false := by
            rwa [show ki + 1 + j2 = ki + (j2 + 1) by omega]
          cases hcc : hidden.contains ki with
          | true =>
              rw [if_pos rfl]
              simp only [List.getD_cons_succ]
              rw [ih (ki + 1) sv hsv j2 hj2 hc2 i hi]
              have hvt : AreaChart.visTotal hidden (data.getD i []) ((k :: l).take (j2 + 1)) ki
                  = (if hidden.contains ki = true then 0
                      else getVal (data.getD i []) k)
                    + AreaChart.visTotal hidden (data.getD i []) (l.take j2) (ki + 1) := rfl
              rw [hvt, hcc, if_pos rfl, AreaChart.GeomPoint.mk.injEq]
              refine ⟨by ring, by ring, by ring, by ring⟩
          | false =>
              rw [if_neg Bool.false_ne_true]
              simp only [List.getD_cons_succ]
              rw [if_pos trivial]
              have hsv2 : (List.zipWith (fun s item => s + getVal item k) sv data).length
                  = data.length := by
                simp [hsv]
              rw [ih (ki + 1) _ hsv2 j2 hj2 hc2 i hi]
              have hiv : i < sv.length := hsv ▸ hi
              have hzi : (List.zipWith (fun s item => s + getVal item k) sv data).getD i 0
                  = sv.getD i 0 + getVal (data.getD i []) k := by
                rw [List.getD_eq_getElem _ 0 (by rw [hsv2]; exact hi), List.getElem_zipWith,
                  List.getD_eq_getElem sv 0 hiv, List.getD_eq_getElem data [] hi]
              rw [hzi]
              have hvt : AreaChart.visTotal hidden (data.getD i []) ((k :: l).take (j2 + 1)) ki
                  = (if hidden.contains ki = true then 0
                      else getVal (data.getD i []) k)
                    + AreaChart.visTotal hidden (data.getD i []) (l.take j2) (ki + 1) := rfl
              rw [hvt, hcc, if_neg Bool.false_ne_true, AreaChart.GeomPoint.mk.injEq]
              refine ⟨by ring, by ring, by ring, by ring⟩

/-- C5: in stacked mode, for every data index i, each visible series has
stackedBase equal to the sum of the raw values of the visible series below
it at that index (hidden series contribute nothing, and are themselves
emitted with no geometry), and at the topmost visible series stackedBase +
value equals the sum of all visible series raw values at that index — the
equality is exact over the rationals, hence within any tolerance. -/
theorem C5_stacked_base_sums (f : AreaChart.Frame) (data : List DataPoint) (yKeys : List String)
    (hidden : List ℕ) (j : ℕ) (hj : j < yKeys.length) :
    (hidden.contains j = true →
      ((AreaChart.allPoints f data yKeys true hidden).getD j default).points = []) ∧
    (hidden.contains j = false → ∀ i, i < data.length →
      (((AreaChart.allPoints f data yKeys true hidden).getD j default).points.getD i
          default).stackedBase
        = AreaChart.visTotal hidden (data.getD i []) (yKeys.take j) 0 ∧
      ((∀ j2, j < j2 → j2 < yKeys.length → hidden.contains j2 = true) →
        (((AreaChart.allPoints f data yKeys true hidden).getD j default).points.getD i
            default).stackedBase
          + (((AreaChart.allPoints f data yKeys true hidden).getD j default).points.getD i
              default).value
          = AreaChart.visTotal hidden (data.getD i []) yKeys 0)) := by
  have hzlen : (data.map (fun _ => (0 : ℚ))).length = data.length := by simp
  constructor
  · intro hc
    rw [AreaChart.allPoints, allPointsAux_hidden_entry f data true hidden yKeys 0 _ j hj
      (by simpa using hc)]
  · intro hc i hi
    have hent := allPointsAux_stacked_entry f data hidden yKeys 0 (data.map fun _ => 0)
      hzlen j hj (by simpa using hc) i hi
    have hz : (data.map (fun _ => (0 : ℚ))).getD i 0 = 0 := by
      rw [List.getD_eq_getElem _ 0 (by simpa using hi)]
      simp
    rw [AreaChart.allPoints, hent, hz]
    constructor
    · simp
    · intro htop
      have hsplit : AreaChart.visTotal hidden (data.getD i []) yKeys 0
          = AreaChart.visTotal hidden (data.getD i []) (yKeys.take (j + 1)) 0
            + AreaChart.visTotal hidden (data.getD i []) (yKeys.drop (j + 1))
                (0 + (yKeys.take (j + 1)).length) := by
        rw [← visTotal_append hidden _ (yKeys.take (j + 1)) (yKeys.drop (j + 1)) 0,
          List.take_append_drop]
      have hlen1 : (yKeys.take (j + 1)).length = j + 1 := by
        simp only [List.length_take]
        omega
      have hdrop0 : AreaChart.visTotal hidden (data.getD i []) (yKeys.drop (j + 1)) (j + 1) = 0 := by
        apply visTotal_all_hidden
        intro j2 hj2
        have hdl : (yKeys.drop (j + 1)).length = yKeys.length - (j + 1) := by simp
        exact htop (j + 1 + j2) (by omega) (by omega)
      have hlenj : (yKeys.take j).length = j := by
        simp only [List.length_take]
        omega
      have hgd : yKeys.getD j "" = yKeys[j] := List.getD_eq_getElem yKeys "" hj
      have htake : AreaChart.visTotal hidden (data.getD i []) (yKeys.take (j + 1)) 0
          = AreaChart.visTotal hidden (data.getD i []) (yKeys.take j) 0
            + getVal (data.getD i []) (yKeys.getD j "") := by
        rw [List.take_succ, List.getElem?_eq_getElem hj]
        simp only [Option.toList_some]
        rw [visTotal_append hidden _ (yKeys.take j) _ 0, hlenj]
        congr 1
        rw [AreaChart.visTotal, Nat.zero_add, hc, if_neg Bool.false_ne_true,
          show AreaChart.visTotal hidden (data.getD i []) [] (j + 1) = 0 from rfl, ← hgd]
        ring
      rw [hsplit, hlen1, Nat.zero_add, hdrop0, htake]
      ring
  
/-- Witness for C5 on two items and series a, b, c with b hidden: series b
has no points, series c (topmost visible) has stackedBase equal to the
visible total of a, b (which is just the a value), and stackedBase + value
equals the full visible total. -/
theorem C5_stacked_base_sums_witness :
    ((AreaChart.allPoints ⟨0, 0, 100, 100, 0, 1⟩
        [[("a", some 1), ("b", some 2), ("c", some 4)],
         [("a", some 8), ("b", some 16), ("c", some 32)]]
        ["a", "b", "c"] true [1]).getD 1 default).points = [] ∧
    (((AreaChart.allPoints ⟨0, 0, 100, 100, 0, 1⟩
        [[("a", some 1), ("b", some 2), ("c", some 4)],
         [("a", some 8), ("b", some 16), ("c", some 32)]]
        ["a", "b", "c"] true [1]).getD 2 default).points.getD 0 default).stackedBase
      = AreaChart.visTotal [1] [("a", some 1), ("b", some 2), ("c", some 4)] ["a", "b"] 0 ∧
    (((AreaChart.allPoints ⟨0, 0, 100, 100, 0, 1⟩
        [[("a", some 1), ("b", some 2), ("c", some 4)],
         [("a", some 8), ("b", some 16), ("c", some 32)]]
        ["a", "b", "c"] true [1]).getD 2 default).points.getD 0 default).stackedBase
      + (((AreaChart.allPoints ⟨0, 0, 100, 100, 0, 1⟩
        [[("a", some 1), ("b", some 2), ("c", some 4)],
         [("a", some 8), ("b", some 16), ("c", some 32)]]
        ["a", "b", "c"] true [1]).getD 2 default).points.getD 0 default).value
      = AreaChart.visTotal [1] [("a", some 1), ("b", some 2), ("c", some 4)] ["a", "b", "c"] 0 := by
  have h1 := C5_stacked_base_sums ⟨0, 0, 100, 100, 0, 1⟩
    [[("a", some 1), ("b", some 2), ("c", some 4)],
     [("a", some 8), ("b", some 16), ("c", some 32)]]
    ["a", "b", "c"] [1] 1 (by decide)
  have h2 := C5_stacked_base_sums ⟨0, 0, 100, 100, 0, 1⟩
    [[("a", some 1), ("b", some 2), ("c", some 4)],
     [("a", some 8), ("b", some 16), ("c", some 32)]]
    ["a", "b", "c"] [1] 2 (by decide)
  have h3 := h2.2 (by decide) 0 (by decide)
  exact ⟨h1.1 (by decide), h3.1, h3.2 (fun j2 ha hb => by simp only [List.length_cons, List.length_nil] at hb; omega)⟩


/-- The slices walk emits one slice per data entry. -/
lemma pieSlicesAux_length (ta t : ℚ) (vk : String) (hidden : List ℕ) (prog : ℚ) (dl : ℕ) :
    ∀ (l : List (ℕ × DataPoint)) (c : ℚ),
    (RadialChart.pieSlicesAux ta t vk hidden prog dl l c).length = l.length := by
  intro l
  induction l with
  | nil => intro c; rfl
  | cons p rest ih =>
      intro c
      obtain ⟨i, item⟩ := p
      rw [RadialChart.pieSlicesAux]
      cases hc : hidden.contains i with
      | true => rw [if_pos rfl]; simp [ih]
      | false => rw [if_neg Bool.false_ne_true]; simp [ih]

/-- The first emitted slice starts at the incoming current angle, hidden or not. -/
lemma pieSlicesAux_head_start (ta t : ℚ) (vk : String) (hidden : List ℕ) (prog : ℚ)
    (dl : ℕ) (p : ℕ × DataPoint) (rest : List (ℕ × DataPoint)) (c : ℚ) :
    ((RadialChart.pieSlicesAux ta t vk hidden prog dl (p :: rest) c).getD 0 default).startAngle = c := by
  obtain ⟨i, item⟩ := p
  rw [RadialChart.pieSlicesAux]
  cases hc : hidden.contains i with
  | true => rw [if_pos rfl]; rfl
  | false => rw [if_neg Bool.false_ne_true]; rfl

/-- Each emitted slice starts exactly where the previous one ends. -/
lemma pieSlicesAux_adjacent (ta t : ℚ) (vk : String) (hidden : List ℕ) (prog : ℚ)
    (dl : ℕ) :
    ∀ (l : List (ℕ × DataPoint)) (c : ℚ) (j : ℕ), j + 1 < l.length →
    ((RadialChart.pieSlicesAux ta t vk hidden prog dl l c).getD (j + 1) default).startAngle
      = ((RadialChart.pieSlicesAux ta t vk hidden prog dl l c).getD j default).endAngle := by
  intro l
  induction l with
  | nil => intro c j hj; simp at hj
  | cons p rest ih =>
      intro c j hj
      obtain ⟨i, item⟩ := p
      rw [RadialChart.pieSlicesAux]
      cases hc : hidden.contains i with
      | true =>
          rw [if_pos rfl]
          cases j with
          | zero =>
              simp only [List.getD_cons_succ, List.getD_cons_zero]
              cases rest with
              | nil => simp at hj
              | cons q rest2 =>
                  exact pieSlicesAux_head_start ta t vk hidden prog dl q rest2 c
          | succ j2 =>
              simp only [List.getD_cons_succ]
              exact ih c j2 (by simpa using hj)
      | false =>
          rw [if_neg Bool.false_ne_true]
          cases j with
          | zero =>
              simp only [List.getD_cons_succ, List.getD_cons_zero]
              cases rest with
              | nil => simp at hj
              | cons q rest2 =>
                  exact pieSlicesAux_head_start ta t vk hidden prog dl q rest2 _
          | succ j2 =>
              simp only [List.getD_cons_succ]
              exact ih _ j2 (by simpa using hj)

/-- A hidden slice occupies a zero angular span. -/
lemma pieSlicesAux_hidden_span (ta t : ℚ) (vk : String) (hidden : List ℕ) (prog : ℚ)
    (dl : ℕ) :
    ∀ (l : List (ℕ × DataPoint)) (c : ℚ) (j : ℕ), j < l.length →
    hidden.contains (l.getD j (0, [])).1 = true →
    ((RadialChart.pieSlicesAux ta t vk hidden prog dl l c).getD j default).startAngle
      = ((RadialChart.pieSlicesAux ta t vk hidden prog dl l c).getD j default).endAngle := by
  intro l
  induction l with
  | nil => intro c j hj; simp at hj
  | cons p rest ih =>
      intro c j hj hc
      obtain ⟨i, item⟩ := p
      rw [RadialChart.pieSlicesAux]
      cases j with
      | zero =>
          simp only [List.getD_cons_zero] at hc
          rw [hc, if_pos rfl]
          rfl
      | succ j2 =>
          simp only [List.getD_cons_succ] at hc
          have hj2 : j2 < rest.length := by simpa using hj
          cases hcc : hidden.contains i with
          | true =>
              rw [if_pos rfl]
              simp only [List.getD_cons_succ]
              exact ih c j2 hj2 hc
          | false =>
              rw [if_neg Bool.false_ne_true]
              simp only [List.getD_cons_succ]
              exact ih _ j2 hj2 hc

/-- The total angular span of the emitted slices is the sum of the per-entry sweep angles. -/
lemma pieSlicesAux_span_sum (ta t : ℚ) (vk : String) (hidden : List ℕ) (prog : ℚ)
    (dl : ℕ) :
    ∀ (l : List (ℕ × DataPoint)) (c : ℚ),
    ((RadialChart.pieSlicesAux ta t vk hidden prog dl l c).map
        (fun s => s.endAngle - s.startAngle)).sum
      = (l.map (fun p => if hidden.contains p.1 = true then 0
          else if 0 < t then (getVal p.2 vk / t) * ta * prog else 0)).sum := by
  intro l
  induction l with
  | nil => intro c; rfl
  | cons p rest ih =>
      intro c
      obtain ⟨i, item⟩ := p
      rw [RadialChart.pieSlicesAux]
      cases hc : hidden.contains i with
      | true =>
          have hm : i ∈ hidden := by simpa using hc
          rw [if_pos rfl]
          simp [ih, hm]
      | false =>
          have hm : i ∉ hidden := by simpa using hc
          rw [if_neg Bool.false_ne_true]
          simp [ih, hm]

/-- The running total fold equals the list sum. -/
lemma foldl_add_eq_sum (vk : String) :
    ∀ (l : List DataPoint) (s : ℚ),
    l.foldl (fun sum d => sum + getVal d vk) s = s + (l.map (fun d => getVal d vk)).sum := by
  intro l
  induction l with
  | nil => intro s; simp
  | cons d rest ih =>
      intro s
      simp only [List.foldl_cons, List.map_cons, List.sum_cons, ih]
      ring

/-- Summing a mapped filter equals summing with the filtered-out entries replaced by zero. -/
lemma sum_filter_ite {α : Type} (P : α → Bool) (f : α → ℚ) :
    ∀ l : List α,
    ((l.filter P).map f).sum = (l.map (fun x => if P x = true then f x else 0)).sum := by
  intro l
  induction l with
  | nil => rfl
  | cons a rest ih =>
      rw [List.filter_cons]
      cases hp : P a with
      | true => simp [hp, ih]
      | false => simp [hp, ih]

/-- A common right factor moves out of a mapped sum. -/
lemma sum_map_mul_right_rat {α : Type} (f : α → ℚ) (b : ℚ) :
    ∀ l : List α, (l.map (fun x => f x * b)).sum = (l.map f).sum * b := by
  intro l
  induction l with
  | nil => simp
  | cons a rest ih => simp [ih]; ring

/-- The pie total is the indexed sum of the values outside the hidden set. -/
lemma pieTotal_eq_enum_sum (data : List DataPoint) (vk : String) (hidden : List ℕ) :
    RadialChart.pieTotal data vk hidden
      = (data.enum.map (fun p =>
          if hidden.contains p.1 = true then 0 else getVal p.2 vk)).sum := by
  rw [RadialChart.pieTotal, RadialChart.visibleData, foldl_add_eq_sum, zero_add, List.map_map,
    sum_filter_ite (fun p => ! hidden.contains p.1)
      ((fun d => getVal d vk) ∘ Prod.snd) data.enum]
  congr 1
  apply List.map_congr_left
  intro p _
  cases hc : hidden.contains p.1 with
  | true => simp [hc]
  | false => simp [hc]

/-- The first component of the i-th enumerated entry is i. -/
lemma enum_getD_fst (data : List DataPoint) (i : ℕ) (hi : i < data.length) :
    (data.enum.getD i (0, ([] : DataPoint))).1 = i := by
  rw [List.getD_eq_getElem?_getD, List.getElem?_enum, List.getElem?_eq_getElem hi]
  rfl

/-- C10 (implicit): the pie slices are angularly contiguous and exhaustive.
For every data array whose visible total is positive, every hidden set, and
animation progress 1: each slice (hidden slices included, which occupy a
zero span) starts exactly at the end angle of the preceding slice, hence
each visible slice starts at the end of the preceding visible slice; the
first slice starts at -pi/2 (-pi for the semi variant); and the angular
spans of all slices sum to exactly 2pi (pi for semi) — no overlap and no
gap. Stated for every value of the pi parameter standing for Math.PI. -/
theorem C10_pie_slices_partition (pi : ℚ) (isSemi : Bool) (data : List DataPoint)
    (valueKey : String) (hidden : List ℕ)
    (htot : 0 < RadialChart.pieTotal data valueKey hidden) :
    (∀ i, i < data.length → hidden.contains i = true →
      ((RadialChart.pieSlices pi isSemi data valueKey hidden 1).getD i default).startAngle
        = ((RadialChart.pieSlices pi isSemi data valueKey hidden 1).getD i default).endAngle) ∧
    (∀ i, i + 1 < data.length →
      ((RadialChart.pieSlices pi isSemi data valueKey hidden 1).getD (i + 1) default).startAngle
        = ((RadialChart.pieSlices pi isSemi data valueKey hidden 1).getD i default).endAngle) ∧
    ((RadialChart.pieSlices pi isSemi data valueKey hidden 1).getD 0 default).startAngle
      = (if isSemi then -pi else -(pi / 2)) ∧
    ((RadialChart.pieSlices pi isSemi data valueKey hidden 1).map
        (fun s => s.endAngle - s.startAngle)).sum
      = (if isSemi then pi else 2 * pi) := by
  have hne : data ≠ [] := by
    intro h
    rw [h] at htot
    norm_num [RadialChart.pieTotal, RadialChart.visibleData] at htot
  refine ⟨?_, ?_, ?_, ?_⟩
  · intro i hi hc
    rw [RadialChart.pieSlices]
    apply pieSlicesAux_hidden_span
    · simpa using hi
    · rwa [enum_getD_fst data i hi]
  · intro i hi
    rw [RadialChart.pieSlices]
    apply pieSlicesAux_adjacent
    simpa using hi
  · rw [RadialChart.pieSlices]
    cases data with
    | nil => exact absurd rfl hne
    | cons d rest =>
        rw [show (d :: rest).enum = (0, d) :: List.enumFrom 1 rest from rfl]
        exact pieSlicesAux_head_start _ _ _ _ _ _ _ _ _
  · rw [RadialChart.pieSlices, pieSlicesAux_span_sum]
    have htne : RadialChart.pieTotal data valueKey hidden ≠ 0 := ne_of_gt htot
    have h1 : (data.enum.map (fun p => if hidden.contains p.1 = true then 0
        else if 0 < RadialChart.pieTotal data valueKey hidden
          then (getVal p.2 valueKey / RadialChart.pieTotal data valueKey hidden)
            * (if isSemi then pi else 2 * pi) * 1 else 0)).sum
      = (data.enum.map (fun p => (if hidden.contains p.1 = true then 0
          else getVal p.2 valueKey)
            * ((if isSemi then pi else 2 * pi) / RadialChart.pieTotal data valueKey hidden))).sum := by
      congr 1
      apply List.map_congr_left
      intro p _
      cases hc : hidden.contains p.1 with
      | true => simp [hc]
      | false =>
          simp only [hc, Bool.false_eq_true, if_false, if_pos htot]
          ring
    rw [h1, sum_map_mul_right_rat (α := ℕ × DataPoint)
        (fun p => if hidden.contains p.1 = true then 0 else getVal p.2 valueKey)
        ((if isSemi then pi else 2 * pi) / RadialChart.pieTotal data valueKey hidden) data.enum,
      ← pieTotal_eq_enum_sum]
    field_simp
    split
    · ring
    · ring

/-- Witness for C10 on three slices with the middle one hidden: the hidden
slice has zero span, adjacency holds, the first slice starts at -pi/2 and
the spans sum to 2pi (with pi instantiated at 314). -/
theorem C10_pie_slices_partition_witness :
    0 < RadialChart.pieTotal [[("v", some 4)], [("v", some 9)], [("v", some 2)]] "v" [1] ∧
    ((RadialChart.pieSlices 314 false [[("v", some 4)], [("v", some 9)], [("v", some 2)]] "v" [1] 1).getD 1
        default).startAngle
      = ((RadialChart.pieSlices 314 false [[("v", some 4)], [("v", some 9)], [("v", some 2)]] "v" [1] 1).getD 1
        default).endAngle ∧
    ((RadialChart.pieSlices 314 false [[("v", some 4)], [("v", some 9)], [("v", some 2)]] "v" [1] 1).getD 1
        default).startAngle
      = ((RadialChart.pieSlices 314 false [[("v", some 4)], [("v", some 9)], [("v", some 2)]] "v" [1] 1).getD 0
        default).endAngle ∧
    ((RadialChart.pieSlices 314 false [[("v", some 4)], [("v", some 9)], [("v", some 2)]] "v" [1] 1).getD 0
        default).startAngle = -(314 / 2) ∧
    ((RadialChart.pieSlices 314 false [[("v", some 4)], [("v", some 9)], [("v", some 2)]] "v" [1] 1).map
        (fun s => s.endAngle - s.startAngle)).sum = 2 * 314 := by
  have h0 : (0 : ℚ) < RadialChart.pieTotal [[("v", some 4)], [("v", some 9)], [("v", some 2)]] "v" [1] := by
    norm_num [RadialChart.pieTotal, RadialChart.visibleData, getVal, List.enum, List.enumFrom, List.lookup]
  have h := C10_pie_slices_partition 314 false
    [[("v", some 4)], [("v", some 9)], [("v", some 2)]] "v" [1] h0
  exact ⟨h0, h.1 1 (by norm_num) (by decide), h.2.1 0 (by norm_num), h.2.2.1, h.2.2.2⟩

/-- A hidden slice is emitted with value 0 and the hidden flag set. -/
lemma pieSlicesAux_hidden_value (ta t : ℚ) (vk : String) (hidden : List ℕ) (prog : ℚ)
    (dl : ℕ) :
    ∀ (l : List (ℕ × DataPoint)) (c : ℚ) (j : ℕ), j < l.length →
    hidden.contains (l.getD j (0, [])).1 = true →
    ((RadialChart.pieSlicesAux ta t vk hidden prog dl l c).getD j default).value = 0 ∧
    ((RadialChart.pieSlicesAux ta t vk hidden prog dl l c).getD j default).hidden = true := by
  intro l
  induction l with
  | nil => intro c j hj; simp at hj
  | cons p rest ih =>
      intro c j hj hc
      obtain ⟨i, item⟩ := p
      rw [RadialChart.pieSlicesAux]
      cases j with
      | zero =>
          simp only [List.getD_cons_zero] at hc
          rw [hc, if_pos rfl]
          exact ⟨rfl, rfl⟩
      | succ j2 =>
          simp only [List.getD_cons_succ] at hc
          have hj2 : j2 < rest.length := by simpa using hj
          cases hcc : hidden.contains i with
          | true =>
              rw [if_pos rfl]
              simp only [List.getD_cons_succ]
              exact ih c j2 hj2 hc
          | false =>
              rw [if_neg Bool.false_ne_true]
              simp only [List.getD_cons_succ]
              exact ih _ j2 hj2 hc

/-- C6 (amended): whenever at least one series remains visible, hiding a
series removes its values from the maxValue computation (changing values
stored under hidden keys cannot change maxValue); the pie total always
reads only items outside the hidden set; a hidden series is removed from
the emitted geometry — its allPoints entry carries no points, and its pie
slice has value 0 and a zero angular span; and color assignments and
legend entries are computed from the original index, so they do not shift
when another series is hidden. When every series is hidden, AreaChart
maxValue falls back to all series (see the counterexample). -/
theorem C6_hidden_series_exclusion :
    (∀ (data data2 : List DataPoint) (yKeys : List String) (hidden : List ℕ)
        (isStacked : Bool),
      AreaChart.visibleYKeys yKeys hidden ≠ [] →
      data.length = data2.length →
      (∀ i, i < data.length → ∀ key, key ∈ AreaChart.visibleYKeys yKeys hidden →
        getVal (data.getD i []) key = getVal (data2.getD i []) key) →
      AreaChart.maxValueJS data yKeys hidden isStacked
        = AreaChart.maxValueJS data2 yKeys hidden isStacked) ∧
    (∀ (data data2 : List DataPoint) (valueKey : String) (hidden : List ℕ),
      data.length = data2.length →
      (∀ i, i < data.length → hidden.contains i = false →
        data.getD i [] = data2.getD i []) →
      RadialChart.pieTotal data valueKey hidden
        = RadialChart.pieTotal data2 valueKey hidden) ∧
    (∀ (f : AreaChart.Frame) (data : List DataPoint) (yKeys : List String)
        (isStacked : Bool) (hidden : List ℕ) (j : ℕ), j < yKeys.length →
      hidden.contains j = true →
      ((AreaChart.allPoints f data yKeys isStacked hidden).getD j default).points
        = []) ∧
    (∀ (pi : ℚ) (isSemi : Bool) (data : List DataPoint) (valueKey : String)
        (hidden : List ℕ) (progress : ℚ) (i : ℕ), i < data.length →
      hidden.contains i = true →
      ((RadialChart.pieSlices pi isSemi data valueKey hidden progress).getD i
          default).startAngle
        = ((RadialChart.pieSlices pi isSemi data valueKey hidden progress).getD i
          default).endAngle ∧
      ((RadialChart.pieSlices pi isSemi data valueKey hidden progress).getD i
          default).value = 0) ∧
    (∀ (pi : ℚ) (isSemi : Bool) (data : List DataPoint) (valueKey : String)
        (hidden : List ℕ) (progress : ℚ) (i : ℕ), i < data.length →
      ((RadialChart.pieSlices pi isSemi data valueKey hidden progress).getD i
          default).colorIdx
        = RadialChart.sliceColorIndex i data.length) ∧
    (∀ (yKeys : List String) (hidden : List ℕ) (i : ℕ), i < yKeys.length →
      (AreaChart.legendItems yKeys hidden).getD i default
        = ⟨AreaChart.getAreaColorIdx i, yKeys.getD i "", hidden.contains i⟩) := by
  refine ⟨maxValueJS_congr, pieTotal_congr, ?_, ?_, pieSlices_colorIdx, legendItems_getD⟩
  · intro f data yKeys isStacked hidden j hj hc
    rw [AreaChart.allPoints, allPointsAux_hidden_entry f data isStacked hidden yKeys 0 _
      j hj (by simpa using hc)]
  · intro pi isSemi data valueKey hidden progress i hi hc
    constructor
    · rw [RadialChart.pieSlices]
      apply pieSlicesAux_hidden_span
      · simpa using hi
      · rwa [enum_getD_fst data i hi]
    · rw [RadialChart.pieSlices]
      refine (pieSlicesAux_hidden_value _ _ _ _ _ _ data.enum _ i (by simpa using hi)
        ?_).1
      rwa [enum_getD_fst data i hi]

/-- Witness for C6 at concrete inputs: hiding series b leaves maxValue
unchanged when only the b values differ; the pie total ignores a hidden
item; a hidden area series has no points; a hidden pie slice has zero
span and value 0; a slice color and a legend entry come from the original
index. -/
theorem C6_hidden_series_exclusion_witness :
    AreaChart.maxValueJS [[("a", some 5), ("b", some 3)]] ["a", "b"] [1] false
      = AreaChart.maxValueJS [[("a", some 5), ("b", some 7)]] ["a", "b"] [1] false ∧
    RadialChart.pieTotal [[("v", some 4)], [("v", some 9)]] "v" [1]
      = RadialChart.pieTotal [[("v", some 4)], [("v", some 100)]] "v" [1] ∧
    ((AreaChart.allPoints ⟨0, 0, 100, 100, 0, 1⟩ [[("a", some 5)]] ["a", "b"] false
        [0]).getD 0 default).points = [] ∧
    ((RadialChart.pieSlices 314 false [[("v", some 4)], [("v", some 9)]] "v" [0] 1).getD 0
        default).startAngle
      = ((RadialChart.pieSlices 314 false [[("v", some 4)], [("v", some 9)]] "v" [0] 1).getD 0
        default).endAngle ∧
    ((RadialChart.pieSlices 314 false [[("v", some 4)], [("v", some 9)]] "v" [0] 1).getD 0
        default).value = 0 ∧
    ((RadialChart.pieSlices 314 false [[("v", some 4)], [("v", some 9)]] "v" [0] 1).getD 1
        default).colorIdx
      = RadialChart.sliceColorIndex 1 2 ∧
    (AreaChart.legendItems ["a", "b"] [0]).getD 1 default
      = ⟨AreaChart.getAreaColorIdx 1, "b", false⟩ := by
  have h := C6_hidden_series_exclusion
  have hslice := h.2.2.2.1 314 false [[("v", some 4)], [("v", some 9)]] "v" [0] 1 0
    (by decide) (by decide)
  refine ⟨h.1 _ _ ["a", "b"] [1] false (by decide) rfl (by decide),
    h.2.1 _ _ "v" [1] rfl (by decide),
    h.2.2.1 ⟨0, 0, 100, 100, 0, 1⟩ [[("a", some 5)]] ["a", "b"] false [0] 0
      (by decide) (by decide),
    hslice.1, hslice.2,
    h.2.2.2.2.1 314 false _ "v" [0] 1 1 (by decide),
    h.2.2.2.2.2 ["a", "b"] [0] 1 (by decide)⟩

end Charts
